import Mathlib

/-!
Shallow embedding of the editing core of `vi.py` (a minimal modal vi-style
editor with multi-byte character support), together with theorems checking
the natural-language specification against it.

Lines are sequences of Unicode code points (`List Nat`), mirroring Python
strings.  The editor state mirrors the `Editor` object's core fields:
`buffer`, `pos`, `mode`, `visual_start`, `utf8buffer`.  Fallible list
indexing in the Python source (which would raise `IndexError` / `TypeError`)
is modelled by `Option`: handlers return `none` exactly when the Python code
would raise.  Screen painting, curses setup and file I/O are plumbing with
no effect on the core state; `save_file` is therefore modelled as the
identity on the core state, and the ex-command line typed by the user is
passed in as an explicit argument.
-/

namespace Vi

/-- A line of text: a list of Unicode code points (a Python `str`). -/
abbrev Line := List Nat

/-- A buffer position `(line, column)`, as in `Editor.pos`. -/
abbrev Pos := Nat × Nat

/-- The editor mode: `self.mode` is one of `"command"`, `"insert"`, `"visual"`. -/
inductive Mode where
  | command : Mode
  | insert : Mode
  | visual : Mode
deriving DecidableEq, Repr

/-- The core state of the `Editor` object in `vi.py`. -/
structure Editor where
  buffer : List Line
  pos : Pos
  mode : Mode
  visual_start : Option Pos
  utf8buffer : List Nat
deriving DecidableEq, Repr

/-- `curses.KEY_BACKSPACE`. -/
def KEY_BACKSPACE : Nat := 263

/-- Whether a continuation byte of a multi-byte sequence: `0x80 ≤ b ≤ 0xBF`. -/
def isCont (b : Nat) : Bool := 0x80 ≤ b && b ≤ 0xBF

/-- Lower bound on the first continuation byte after a 3-byte lead `b`
(UTF-8 excludes overlong encodings and surrogates). -/
def cont3Lo (b : Nat) : Nat := if b = 0xE0 then 0xA0 else 0x80

/-- Upper bound on the first continuation byte after a 3-byte lead `b`. -/
def cont3Hi (b : Nat) : Nat := if b = 0xED then 0x9F else 0xBF

/-- Lower bound on the first continuation byte after a 4-byte lead `b`. -/
def cont4Lo (b : Nat) : Nat := if b = 0xF0 then 0x90 else 0x80

/-- Upper bound on the first continuation byte after a 4-byte lead `b`. -/
def cont4Hi (b : Nat) : Nat := if b = 0xF4 then 0x8F else 0xBF

/-- Strict UTF-8 decoding of one character from the front of a byte list:
returns the code point and the remaining bytes, or `none` if the front is
not a complete valid sequence (structurally invalid lead or continuation
bytes, overlong forms, surrogates, values past U+10FFFF, or truncation). -/
def decodeOneChar : List Nat → Option (Nat × List Nat)
  | [] => none
  | b :: rest =>
    if b < 0x80 then some (b, rest)
    else if 0xC2 ≤ b ∧ b ≤ 0xDF then
      match rest with
      | b1 :: rest2 =>
        if isCont b1 then some ((b - 0xC0) * 64 + (b1 - 0x80), rest2) else none
      | _ => none
    else if 0xE0 ≤ b ∧ b ≤ 0xEF then
      match rest with
      | b1 :: b2 :: rest2 =>
        if cont3Lo b ≤ b1 ∧ b1 ≤ cont3Hi b ∧ isCont b2 then
          some ((b - 0xE0) * 4096 + (b1 - 0x80) * 64 + (b2 - 0x80), rest2)
        else none
      | _ => none
    else if 0xF0 ≤ b ∧ b ≤ 0xF4 then
      match rest with
      | b1 :: b2 :: b3 :: rest2 =>
        if cont4Lo b ≤ b1 ∧ b1 ≤ cont4Hi b ∧ isCont b2 ∧ isCont b3 then
          some ((b - 0xF0) * 262144 + (b1 - 0x80) * 4096 +
                  (b2 - 0x80) * 64 + (b3 - 0x80), rest2)
        else none
      | _ => none
    else none

/-- Decode a whole byte list, consuming one character at a time.  `fuel`
bounds the number of characters; since each character takes at least one
byte, fuel equal to the list length is always sufficient. -/
def utf8DecodeF : Nat → List Nat → Option (List Nat)
  | _, [] => some []
  | 0, _ :: _ => none
  | fuel + 1, b :: rest =>
    (decodeOneChar (b :: rest)).bind
      (fun cr => (utf8DecodeF fuel cr.2).map (fun s => cr.1 :: s))

/-- Strict UTF-8 decoding of a byte list into a list of code points, as done
by Python's `bytes.decode("utf-8")` in `handle_insert`.  Returns `none` when
Python would raise `UnicodeDecodeError`: on a structurally invalid sequence
as well as on a truncated (incomplete) one — the `try`/`except` in the
source does not distinguish the two. -/
def utf8Decode (l : List Nat) : Option (List Nat) :=
  utf8DecodeF l.length l

/-- Lines 88–96 of `handle_insert`: given the pending `utf8buffer` and the new
input unit `ch`, produce the decoded string (if any) and the new pending
buffer.  Mirrors: if `ch < 256 and ch != 27`, try to decode
`utf8buffer + [ch]` (clearing the pending buffer on success, appending `ch`
on `UnicodeDecodeError`); otherwise clear the pending buffer. -/
def decodeStep (ub : List Nat) (ch : Nat) : Option (List Nat) × List Nat :=
  if ch < 256 ∧ ch ≠ 27 then
    match utf8Decode (ub ++ [ch]) with
    | some s => (some s, [])
    | none => (none, ub ++ [ch])
  else (none, [])

/-- `curses.ascii.isctrl(chr(ch))`: code points below 32. -/
def isctrl (ch : Nat) : Prop := ch < 32

instance (ch : Nat) : Decidable (isctrl ch) := by
  unfold isctrl
  infer_instance

/-- Python `list.insert(i, x)`: insert before index `i`, appending when `i`
is past the end (Python clamps, unlike `List.insertIdx`). -/
def pyInsertAt (l : List Line) (i : Nat) (x : Line) : List Line :=
  l.take i ++ x :: l.drop i

/-- `handle_ex_command`, with the line read from the status-line collaborator
passed in as `cmd`.  `save_file` only performs file I/O and does not touch
the core state, so it is the identity here.  Returns the continue flag that
the Python function returns (`False` for `q` and `wq`). -/
def handle_ex_command (st : Editor) (cmd : String) : Editor × Bool :=
  if cmd = "w" then (st, true)
  else if cmd = "q" then (st, false)
  else if cmd = "wq" then (st, false)
  else (st, true)

/-- `handle_command`.  Key codes: `i`=105, `a`=97, `v`=118, `h`=104, `l`=108,
`j`=106, `k`=107, `:`=58.  `exLine` is the ex-command line the collaborator
would return when `:` is pressed.  Note line 83 of the source calls
`handle_ex_command` and discards its return value; line 85 returns `True`
unconditionally. -/
def handle_command (st : Editor) (ch : Nat) (exLine : String) : Option (Editor × Bool) :=
  if ch = 105 then
    some ({st with mode := Mode.insert}, true)
  else if ch = 97 then
    match st.buffer.get? st.pos.1 with
    | none => none
    | some line =>
      let st1 := if st.pos.2 < line.length then {st with pos := (st.pos.1, st.pos.2 + 1)} else st
      some ({st1 with mode := Mode.insert}, true)
  else if ch = 118 then
    some ({st with mode := Mode.visual, visual_start := some st.pos}, true)
  else if ch = 104 then
    some (if st.pos.2 > 0 then {st with pos := (st.pos.1, st.pos.2 - 1)} else st, true)
  else if ch = 108 then
    match st.buffer.get? st.pos.1 with
    | none => none
    | some line =>
      some (if st.pos.2 < line.length then {st with pos := (st.pos.1, st.pos.2 + 1)} else st, true)
  else if ch = 106 then
    if st.pos.1 < st.buffer.length - 1 then
      match st.buffer.get? (st.pos.1 + 1) with
      | none => none
      | some nextLine =>
        some ({st with pos := (st.pos.1 + 1, min st.pos.2 nextLine.length)}, true)
    else some (st, true)
  else if ch = 107 then
    if st.pos.1 > 0 then
      match st.buffer.get? (st.pos.1 - 1) with
      | none => none
      | some prevLine =>
        some ({st with pos := (st.pos.1 - 1, min st.pos.2 prevLine.length)}, true)
    else some (st, true)
  else if ch = 58 then
    let r := handle_ex_command st exLine
    some (r.1, true)
  else some (st, true)

/-- `handle_insert`.  The decode step (lines 88–96) runs first, then the
`elif` chain on `ch`: escape 27, enter 10, backspace (`KEY_BACKSPACE` or
127), then insertion of a decoded non-control string. -/
def handle_insert (st : Editor) (ch : Nat) : Option (Editor × Bool) :=
  let d := decodeStep st.utf8buffer ch
  let st0 := {st with utf8buffer := d.2}
  if ch = 27 then
    let st1 := {st0 with mode := Mode.command}
    some (if st1.pos.2 > 0 then {st1 with pos := (st1.pos.1, st1.pos.2 - 1)} else st1, true)
  else if ch = 10 then
    match st0.buffer.get? st0.pos.1 with
    | none => none
    | some line =>
      let b1 := st0.buffer.set st0.pos.1 (line.take st0.pos.2)
      let b2 := pyInsertAt b1 (st0.pos.1 + 1) (line.drop st0.pos.2)
      some ({st0 with buffer := b2, pos := (st0.pos.1 + 1, 0)}, true)
  else if ch = KEY_BACKSPACE ∨ ch = 127 then
    if st0.pos.2 > 0 then
      match st0.buffer.get? st0.pos.1 with
      | none => none
      | some line =>
        some ({st0 with
                buffer := st0.buffer.set st0.pos.1
                  (line.take (st0.pos.2 - 1) ++ line.drop st0.pos.2),
                pos := (st0.pos.1, st0.pos.2 - 1)}, true)
    else some (st0, true)
  else
    match d.1 with
    | some s =>
      if s ≠ [] ∧ ¬ isctrl ch then
        match st0.buffer.get? st0.pos.1 with
        | none => none
        | some line =>
          some ({st0 with
                  buffer := st0.buffer.set st0.pos.1
                    (line.take st0.pos.2 ++ s ++ line.drop st0.pos.2),
                  pos := (st0.pos.1, st0.pos.2 + s.length)}, true)
      else some (st0, true)
    | none => some (st0, true)

/-- Normalization of the visual range (lines 125–129): `start` is the visual
anchor, `end` the cursor; they are swapped when `start` follows `end` in
(line, column) lexicographic order. -/
def normRange (s e : Pos) : Pos × Pos :=
  if s.1 > e.1 ∨ (s.1 = e.1 ∧ s.2 > e.2) then (e, s) else (s, e)

/-- Lines 125–138 of `handle_visual` (`d` key): normalize the
(anchor, cursor) pair, then delete the selected range, returning the new
buffer and the new cursor position.  On the same line the range
`[start_col, end_col)` is spliced out; across lines the start line becomes
its prefix up to `start_col` plus the suffix of the end line from `end_col`,
and the lines `start_line+1 .. end_line` are removed.  Out-of-range buffer
indexing raises in Python: `none`. -/
def visualDelete (buf : List Line) (a e : Pos) : Option (List Line × Pos) :=
  let n := normRange a e
  if n.1.1 = n.2.1 then
    match buf.get? n.1.1 with
    | none => none
    | some line =>
      some (buf.set n.1.1 (line.take n.1.2 ++ line.drop n.2.2), (n.1.1, n.1.2))
  else
    match buf.get? n.1.1, buf.get? n.2.1 with
    | some sline, some eline =>
      let b1 := buf.set n.1.1 (sline.take n.1.2 ++ eline.drop n.2.2)
      some (b1.take (n.1.1 + 1) ++ b1.drop (n.2.1 + 1), (n.1.1, n.1.2))
    | _, _ => none

/-- `handle_visual`.  Key codes: escape 27, `d`=100, `y`=121, and motions
h/j/k/l delegated to `handle_command`.  Unpacking `self.visual_start` when it
is `None`, or indexing the buffer out of range, raises in Python: `none`. -/
def handle_visual (st : Editor) (ch : Nat) (exLine : String) : Option (Editor × Bool) :=
  if ch = 27 then
    some ({st with mode := Mode.command, visual_start := none}, true)
  else if ch = 100 then
    match st.visual_start with
    | none => none
    | some a =>
      match visualDelete st.buffer a st.pos with
      | none => none
      | some bp =>
        some ({st with
                buffer := bp.1, pos := bp.2, mode := Mode.command,
                visual_start := none}, true)
  else if ch = 121 then
    some ({st with mode := Mode.command, visual_start := none}, true)
  else if ch = 104 ∨ ch = 106 ∨ ch = 107 ∨ ch = 108 then
    handle_command st ch exLine
  else some (st, true)

/-- `handle_input`: dispatch on the current mode.  The returned `Bool` is the
continue flag consumed by `main_loop`. -/
def handle_input (st : Editor) (ch : Nat) (exLine : String) : Option (Editor × Bool) :=
  match st.mode with
  | Mode.command => handle_command st ch exLine
  | Mode.insert => handle_insert st ch
  | Mode.visual => handle_visual st ch exLine

/-- Display width of one character (line 178): 2 if the code point exceeds
127, else 1. -/
def charWidth (c : Nat) : Nat := if c > 127 then 2 else 1

/-- Total display width of a line: the sum of `charWidth` over its characters. -/
def widthSum : List Nat → Nat
  | [] => 0
  | c :: r => charWidth c + widthSum r

/-- The loop of `pos2buffer` (lines 173–180): `p` is the accumulated display
width, `i` the current character index.  At each character the accumulated
width so far is compared with the target `x`; after the loop the Python
variable `i` holds the index of the last character (or 0 for an empty line)
and `i + (x - p) + 1` is returned — over `Int`, since `x - p` may be
negative in Python. -/
def pos2bufferGo (x : Nat) : List Nat → Nat → Nat → Int
  | [], p, _ => (0 : Int) + ((x : Int) - (p : Int)) + 1
  | [c], p, i =>
    if p ≥ x then (i : Int)
    else ((i : Int) + ((x : Int) - ((p + charWidth c : Nat) : Int))) + 1
  | c :: c2 :: rest, p, i =>
    if p ≥ x then (i : Int) else pos2bufferGo x (c2 :: rest) (p + charWidth c) (i + 1)

/-- `pos2buffer`: convert a screen position `(y, x)` to a buffer column.
Indexing `self.buffer[y]` out of range raises in Python: `none`. -/
def pos2buffer (st : Editor) (pos : Pos) : Option Int :=
  match st.buffer.get? pos.1 with
  | none => none
  | some line => some (pos2bufferGo pos.2 line 0 0)

/-- A position is valid for a buffer when its line index is in range and its
column is at most the length of that line (the past-end insert point). -/
def validPos (buf : List Line) (p : Pos) : Prop :=
  p.1 < buf.length ∧ p.2 ≤ ((buf.get? p.1).getD []).length

instance (buf : List Line) (p : Pos) : Decidable (validPos buf p) := by
  unfold validPos
  infer_instance

/-- The state invariant: the buffer is never empty, the cursor is a valid
position, and in visual mode the anchor is present and valid. -/
def EditorInv (st : Editor) : Prop :=
  st.buffer ≠ [] ∧ validPos st.buffer st.pos ∧
    (st.mode = Mode.visual →
      st.visual_start.isSome ∧ validPos st.buffer (st.visual_start.getD (0, 0)))

instance (st : Editor) : Decidable (EditorInv st) := by
  unfold EditorInv
  infer_instance

/-! ### List helper lemmas -/

theorem get?_some_of_lt {α : Type} : ∀ (l : List α) (i : Nat), i < l.length →
    ∃ a, l.get? i = some a
  | [], i, h => absurd h (by simp)
  | a :: _, 0, _ => ⟨a, rfl⟩
  | _ :: l, i + 1, h => get?_some_of_lt l i (by simpa using h)

theorem get?_set_self {α : Type} : ∀ (l : List α) (i : Nat) (a : α), i < l.length →
    (l.set i a).get? i = some a
  | [], i, _, h => absurd h (by simp)
  | _ :: _, 0, _, _ => rfl
  | _ :: l, i + 1, a, h => get?_set_self l i a (by simpa using h)

theorem get?_set_ne {α : Type} : ∀ (l : List α) (i j : Nat) (a : α), i ≠ j →
    (l.set i a).get? j = l.get? j
  | [], _, _, _, _ => rfl
  | _ :: _, 0, 0, _, h => absurd rfl h
  | _ :: _, 0, _ + 1, _, _ => rfl
  | _ :: _, _ + 1, 0, _, _ => rfl
  | _ :: l, i + 1, j + 1, a, h => get?_set_ne l i j a (fun e => h (by rw [e]))

theorem get?_append_lt {α : Type} : ∀ (l m : List α) (i : Nat), i < l.length →
    (l ++ m).get? i = l.get? i
  | [], _, i, h => absurd h (by simp)
  | _ :: _, _, 0, _ => rfl
  | _ :: l, m, i + 1, h => get?_append_lt l m i (by simpa using h)

theorem get?_append_ge {α : Type} : ∀ (l m : List α) (i : Nat), l.length ≤ i →
    (l ++ m).get? i = m.get? (i - l.length)
  | [], m, i, _ => by simp
  | _ :: _, _, 0, h => absurd h (by simp)
  | _ :: l, m, i + 1, h => by
    have := get?_append_ge l m i (by simpa using h)
    simpa using this

theorem get?_take_lt {α : Type} : ∀ (l : List α) (n i : Nat), i < n →
    (l.take n).get? i = l.get? i
  | [], n, i, _ => by simp
  | _ :: _, n + 1, 0, _ => rfl
  | _ :: l, n + 1, i + 1, h => get?_take_lt l n i (by omega)
  | _ :: _, 0, i, h => absurd h (by omega)

/-! ### Normalization lemmas for the visual range -/

theorem normRange_comm (a b : Pos) : normRange a b = normRange b a := by
  unfold normRange
  by_cases h1 : a.1 > b.1 ∨ (a.1 = b.1 ∧ a.2 > b.2)
  · rw [if_pos h1, if_neg (by omega)]
  · by_cases h2 : b.1 > a.1 ∨ (b.1 = a.1 ∧ b.2 > a.2)
    · rw [if_neg h1, if_pos h2]
    · rw [if_neg h1, if_neg h2]
      have ha : a.1 = b.1 ∧ a.2 = b.2 := by omega
      have : a = b := Prod.ext ha.1 ha.2
      rw [this]

theorem normRange_cases (a b : Pos) :
    normRange a b = (a, b) ∨ normRange a b = (b, a) := by
  unfold normRange
  split
  · right; rfl
  · left; rfl

theorem normRange_le (a b : Pos) :
    (normRange a b).1.1 ≤ (normRange a b).2.1 ∧
      ((normRange a b).1.1 = (normRange a b).2.1 →
        (normRange a b).1.2 ≤ (normRange a b).2.2) := by
  unfold normRange
  split <;> dsimp only <;> omega

/-! ### Decoder evaluation lemmas -/

theorem utf8DecodeF_succ (f b : Nat) (rest : List Nat) :
    utf8DecodeF (f + 1) (b :: rest) =
      (decodeOneChar (b :: rest)).bind
        (fun cr => (utf8DecodeF f cr.2).map (fun s => cr.1 :: s)) := rfl

theorem decodeOneChar_ascii (c : Nat) (rest : List Nat) (h : c < 0x80) :
    decodeOneChar (c :: rest) = some (c, rest) := by
  unfold decodeOneChar
  dsimp only
  rw [if_pos h]

theorem decodeOneChar_lead3_one (b0 : Nat) (h : 0xE0 ≤ b0 ∧ b0 ≤ 0xEF) :
    decodeOneChar [b0] = none := by
  unfold decodeOneChar
  dsimp only
  rw [if_neg (by omega), if_neg (by omega), if_pos h]

theorem decodeOneChar_lead3_two (b0 b1 : Nat) (h : 0xE0 ≤ b0 ∧ b0 ≤ 0xEF) :
    decodeOneChar [b0, b1] = none := by
  unfold decodeOneChar
  dsimp only
  rw [if_neg (by omega), if_neg (by omega), if_pos h]

theorem decodeOneChar_lead3_full (b0 b1 b2 : Nat) (rest : List Nat)
    (h : 0xE0 ≤ b0 ∧ b0 ≤ 0xEF)
    (h1 : cont3Lo b0 ≤ b1 ∧ b1 ≤ cont3Hi b0) (h2 : isCont b2) :
    decodeOneChar (b0 :: b1 :: b2 :: rest) =
      some ((b0 - 0xE0) * 4096 + (b1 - 0x80) * 64 + (b2 - 0x80), rest) := by
  unfold decodeOneChar
  dsimp only
  rw [if_neg (by omega), if_neg (by omega), if_pos h, if_pos ⟨h1.1, h1.2, h2⟩]

theorem utf8Decode_ascii (c : Nat) (h : c < 0x80) : utf8Decode [c] = some [c] := by
  show utf8DecodeF (0 + 1) [c] = some [c]
  rw [utf8DecodeF_succ, decodeOneChar_ascii c [] h]
  rfl

theorem utf8Decode_lead3_one (b0 : Nat) (h : 0xE0 ≤ b0 ∧ b0 ≤ 0xEF) :
    utf8Decode [b0] = none := by
  show utf8DecodeF (0 + 1) [b0] = none
  rw [utf8DecodeF_succ, decodeOneChar_lead3_one b0 h]
  rfl

theorem utf8Decode_lead3_two (b0 b1 : Nat) (h : 0xE0 ≤ b0 ∧ b0 ≤ 0xEF) :
    utf8Decode [b0, b1] = none := by
  show utf8DecodeF (1 + 1) [b0, b1] = none
  rw [utf8DecodeF_succ, decodeOneChar_lead3_two b0 b1 h]
  rfl

theorem utf8Decode_lead3_full (b0 b1 b2 : Nat) (h : 0xE0 ≤ b0 ∧ b0 ≤ 0xEF)
    (h1 : cont3Lo b0 ≤ b1 ∧ b1 ≤ cont3Hi b0) (h2 : isCont b2) :
    utf8Decode [b0, b1, b2] =
      some [(b0 - 0xE0) * 4096 + (b1 - 0x80) * 64 + (b2 - 0x80)] := by
  show utf8DecodeF (2 + 1) [b0, b1, b2] = _
  rw [utf8DecodeF_succ, decodeOneChar_lead3_full b0 b1 b2 [] h h1 h2]
  rfl

/-! ### Decode-step lemmas -/

theorem decodeStep_ctrl (ub : List Nat) (ch : Nat) (h : ch = 27 ∨ 256 ≤ ch) :
    decodeStep ub ch = (none, []) := by
  unfold decodeStep
  rw [if_neg (by omega)]

theorem decodeStep_fail (ub : List Nat) (ch : Nat) (h256 : ch < 256) (h27 : ch ≠ 27)
    (hdec : utf8Decode (ub ++ [ch]) = none) :
    decodeStep ub ch = (none, ub ++ [ch]) := by
  unfold decodeStep
  rw [if_pos ⟨h256, h27⟩, hdec]

theorem decodeStep_ok (ub : List Nat) (ch : Nat) (s : List Nat) (h256 : ch < 256)
    (h27 : ch ≠ 27) (hdec : utf8Decode (ub ++ [ch]) = some s) :
    decodeStep ub ch = (some s, []) := by
  unfold decodeStep
  rw [if_pos ⟨h256, h27⟩, hdec]

/-- If the input unit clears the pending buffer (escape or a unit ≥ 256),
any state produced by `handle_insert` has an empty pending buffer. -/
theorem handle_insert_ub_ctrl (st : Editor) (ch : Nat) (st' : Editor) (b : Bool)
    (hch : ch = 27 ∨ 256 ≤ ch) (h : handle_insert st ch = some (st', b)) :
    st'.utf8buffer = [] := by
  have hd : decodeStep st.utf8buffer ch = (none, []) := decodeStep_ctrl _ _ hch
  simp only [handle_insert, hd] at h
  split at h
  · simp only [Option.some.injEq, Prod.mk.injEq] at h
    obtain ⟨h1, _⟩ := h
    subst h1
    split <;> rfl
  · split at h
    · split at h
      · exact Option.noConfusion h
      · simp only [Option.some.injEq, Prod.mk.injEq] at h
        obtain ⟨h1, _⟩ := h
        subst h1
        rfl
    · split at h
      · split at h
        · split at h
          · exact Option.noConfusion h
          · simp only [Option.some.injEq, Prod.mk.injEq] at h
            obtain ⟨h1, _⟩ := h
            subst h1
            rfl
        · simp only [Option.some.injEq, Prod.mk.injEq] at h
          obtain ⟨h1, _⟩ := h
          subst h1
          rfl
      · simp only [Option.some.injEq, Prod.mk.injEq] at h
        obtain ⟨h1, _⟩ := h
        subst h1
        rfl

/-! ### Claim theorems: session termination (C1) -/

/-- C1: in command mode the `:` event invokes the ex-command collaborator, and
for the completed lines `q` and `wq` that collaborator reports that the
session should stop (`false`); but `handle_command` discards this return
value (line 83 of the source) and returns `True` (line 85), so the top-level
input handler reports that the session should continue.  This contradicts
the claim (and the evident intent of `handle_ex_command` returning `False`),
so the claim marks a code bug; this theorem evaluates the code at the
failing input, exhibiting the divergence. -/
theorem ex_quit_ignored :
    (handle_ex_command ⟨[[]], (0, 0), Mode.command, none, []⟩ "q").2 = false ∧
    (handle_ex_command ⟨[[]], (0, 0), Mode.command, none, []⟩ "wq").2 = false ∧
    handle_input ⟨[[]], (0, 0), Mode.command, none, []⟩ 58 "q" =
      some (⟨[[]], (0, 0), Mode.command, none, []⟩, true) ∧
    handle_input ⟨[[]], (0, 0), Mode.command, none, []⟩ 58 "wq" =
      some (⟨[[]], (0, 0), Mode.command, none, []⟩, true) := by
  refine ⟨by decide, by decide, by decide, by decide⟩

/-! ### Claim theorems: the concrete visual-delete scenario (C6) -/

/-- C6: with buffer `["ab", "cd"]`, anchor `(0,1)` and cursor `(1,1)`, the
visual-mode `d` event yields buffer `["ad"]` (prefix of line 0 up to column 1
plus the suffix of line 1 from column 1), cursor `(0,1)`, mode command, and
the anchor cleared. -/
theorem visual_delete_scenario :
    handle_input ⟨[[97, 98], [99, 100]], (1, 1), Mode.visual, some (0, 1), []⟩ 100 "" =
      some (⟨[[97, 100]], (0, 1), Mode.command, none, []⟩, true) := by
  decide

/-! ### Claim theorems: decoding and pending bytes (C3, C4, C8, C10) -/

/-- C3 (amended): when `utf8buffer ++ [ch]` does not decode (which covers
every structurally invalid accumulation) and `ch` is not a control unit, the
failing byte is APPENDED to the pending buffer — it is retained, not
cleared — and no character is produced: buffer, cursor and mode are
unchanged, with no user-visible error.  (The run is discarded only when a
unit 27 or ≥ 256 arrives.) -/
theorem malformed_retained (st : Editor) (ch : Nat) (e : String)
    (hm : st.mode = Mode.insert) (h256 : ch < 256) (h27 : ch ≠ 27)
    (h10 : ch ≠ 10) (h127 : ch ≠ 127)
    (hdec : utf8Decode (st.utf8buffer ++ [ch]) = none) :
    handle_input st ch e = some ({st with utf8buffer := st.utf8buffer ++ [ch]}, true) := by
  have hd : decodeStep st.utf8buffer ch = (none, st.utf8buffer ++ [ch]) :=
    decodeStep_fail _ _ h256 h27 hdec
  simp only [handle_input, hm, handle_insert, hd]
  rw [if_neg h27, if_neg h10,
    if_neg (show ¬ (ch = KEY_BACKSPACE ∨ ch = 127) by
      unfold KEY_BACKSPACE
      omega)]

/-- C3's counterexample to the claim as stated: feeding the lone continuation
byte `0x80` (structurally invalid: no extension of it is valid UTF-8) leaves
it IN the pending buffer (`[128] ≠ []`), contradicting "clear PendingBytes". -/
theorem malformed_clear_cx :
    handle_input ⟨[[]], (0, 0), Mode.insert, none, []⟩ 128 "" =
      some (⟨[[]], (0, 0), Mode.insert, none, [128]⟩, true) ∧
    ([128] : List Nat) ≠ [] := by
  refine ⟨by decide, by decide⟩

/-- Witness for `malformed_retained`: the lone continuation byte 128. -/
theorem malformed_retained_witness :
    handle_input ⟨[[]], (0, 0), Mode.insert, none, []⟩ 128 "" =
      some (⟨[[]], (0, 0), Mode.insert, none, [128]⟩, true) :=
  malformed_retained ⟨[[]], (0, 0), Mode.insert, none, []⟩ 128 "" rfl (by decide)
    (by decide) (by decide) (by decide) (by decide)

/-- C4 (amended): for input units 27 (escape) or ≥ 256 (named keys) arriving
while the pending buffer is non-empty, the pending buffer is discarded and no
character is produced — the state produced has empty `utf8buffer` and the
event is handled exactly as it would be with an empty pending buffer.
(Units 10 and 127, being < 256, instead go through the decoder and are
appended to the pending buffer on decode failure.) -/
theorem control_clears_pending (st : Editor) (ch : Nat) (e : String)
    (st' : Editor) (b : Bool) (hm : st.mode = Mode.insert)
    (hub : st.utf8buffer ≠ []) (hch : ch = 27 ∨ 256 ≤ ch)
    (h : handle_input st ch e = some (st', b)) :
    st'.utf8buffer = [] ∧
      handle_input st ch e = handle_input {st with utf8buffer := []} ch e := by
  simp only [handle_input, hm] at h ⊢
  refine ⟨handle_insert_ub_ctrl st ch st' b hch h, ?_⟩
  have hd1 : decodeStep st.utf8buffer ch = (none, []) := decodeStep_ctrl _ _ hch
  have hd2 : decodeStep ([] : List Nat) ch = (none, []) := decodeStep_ctrl _ _ hch
  simp only [handle_insert, hd1, hd2, hm]

/-- C4's counterexample to the claim as stated: enter (10) with pending
bytes `[128]` does NOT discard them — decode of `[128, 10]` fails and 10 is
appended, leaving `[128, 10]` pending (while the line split still happens). -/
theorem control_pending_cx :
    handle_input ⟨[[]], (0, 0), Mode.insert, none, [128]⟩ 10 "" =
      some (⟨[[], []], (1, 0), Mode.insert, none, [128, 10]⟩, true) ∧
    ([128, 10] : List Nat) ≠ [] := by
  refine ⟨by decide, by decide⟩

/-- Witness for `control_clears_pending`: escape with pending `[128]`. -/
theorem control_clears_pending_witness :
    (⟨[[]], (0, 0), Mode.command, none, []⟩ : Editor).utf8buffer = [] ∧
    handle_input ⟨[[]], (0, 0), Mode.insert, none, [128]⟩ 27 "" =
      handle_input ⟨[[]], (0, 0), Mode.insert, none, []⟩ 27 "" :=
  control_clears_pending ⟨[[]], (0, 0), Mode.insert, none, [128]⟩ 27 ""
    ⟨[[]], (0, 0), Mode.command, none, []⟩ true rfl (by decide) (Or.inl rfl) (by decide)

/-- C8: feeding a valid 3-byte UTF-8 sequence one byte per event in insert
mode (starting from empty pending bytes) produces no character and no state
change other than the growing pending buffer on the first two events, and on
the third event decodes exactly the encoded code point, clears the pending
buffer, inserts the character at the cursor column and advances the cursor
by one code point. -/
theorem three_byte_decode (st : Editor) (e : String) (b0 b1 b2 : Nat) (line : Line)
    (hm : st.mode = Mode.insert) (hub : st.utf8buffer = [])
    (hb0 : 0xE0 ≤ b0 ∧ b0 ≤ 0xEF) (hb1 : cont3Lo b0 ≤ b1 ∧ b1 ≤ cont3Hi b0)
    (hb2 : isCont b2) (hline : st.buffer.get? st.pos.1 = some line) :
    handle_input st b0 e = some ({st with utf8buffer := [b0]}, true) ∧
    handle_input {st with utf8buffer := [b0]} b1 e =
      some ({st with utf8buffer := [b0, b1]}, true) ∧
    handle_input {st with utf8buffer := [b0, b1]} b2 e =
      some ({st with
              buffer := st.buffer.set st.pos.1
                (line.take st.pos.2 ++
                  [(b0 - 0xE0) * 4096 + (b1 - 0x80) * 64 + (b2 - 0x80)] ++
                  line.drop st.pos.2),
              pos := (st.pos.1, st.pos.2 + 1),
              utf8buffer := []}, true) := by
  have hb1lo : 0x80 ≤ b1 := le_trans (by unfold cont3Lo; split <;> omega) hb1.1
  have hb1hi : b1 ≤ 0xBF := le_trans hb1.2 (by unfold cont3Hi; split <;> omega)
  have hb2r : 0x80 ≤ b2 ∧ b2 ≤ 0xBF := by
    simpa [isCont, Bool.and_eq_true, decide_eq_true_eq] using hb2
  obtain ⟨buf, p, m, vs, ub⟩ := st
  dsimp only at hm hub hline ⊢
  subst hm
  subst hub
  refine ⟨?_, ?_, ?_⟩
  · have hd : decodeStep [] b0 = (none, [b0]) := by
      have h := decodeStep_fail [] b0 (by omega) (by omega)
        (by simpa using utf8Decode_lead3_one b0 hb0)
      simpa using h
    simp only [handle_input, handle_insert, hd]
    rw [if_neg (show ¬ b0 = 27 by omega), if_neg (show ¬ b0 = 10 by omega),
      if_neg (show ¬ (b0 = KEY_BACKSPACE ∨ b0 = 127) by unfold KEY_BACKSPACE; omega)]
  · have hd : decodeStep [b0] b1 = (none, [b0, b1]) := by
      have h := decodeStep_fail [b0] b1 (by omega) (by omega)
        (by simpa using utf8Decode_lead3_two b0 b1 hb0)
      simpa using h
    simp only [handle_input, handle_insert, hd]
    rw [if_neg (show ¬ b1 = 27 by omega), if_neg (show ¬ b1 = 10 by omega),
      if_neg (show ¬ (b1 = KEY_BACKSPACE ∨ b1 = 127) by unfold KEY_BACKSPACE; omega)]
  · have hd : decodeStep [b0, b1] b2 =
        (some [(b0 - 0xE0) * 4096 + (b1 - 0x80) * 64 + (b2 - 0x80)], []) := by
      have h := decodeStep_ok [b0, b1] b2
        [(b0 - 0xE0) * 4096 + (b1 - 0x80) * 64 + (b2 - 0x80)] (by omega) (by omega)
        (by simpa using utf8Decode_lead3_full b0 b1 b2 hb0 hb1 hb2)
      simpa using h
    simp only [handle_input, handle_insert, hd]
    rw [if_neg (show ¬ b2 = 27 by omega), if_neg (show ¬ b2 = 10 by omega),
      if_neg (show ¬ (b2 = KEY_BACKSPACE ∨ b2 = 127) by unfold KEY_BACKSPACE; omega),
      if_pos (show _ ∧ ¬ isctrl b2 from ⟨by simp, by unfold isctrl; omega⟩)]
    rw [hline]
    dsimp only
    rw [List.length_singleton]

/-- Witness for `three_byte_decode`: the bytes `E4 B8 AD` of U+4E2D. -/
theorem three_byte_decode_witness :
    handle_input ⟨[[]], (0, 0), Mode.insert, none, []⟩ 228 "" =
      some (⟨[[]], (0, 0), Mode.insert, none, [228]⟩, true) ∧
    handle_input ⟨[[]], (0, 0), Mode.insert, none, [228]⟩ 184 "" =
      some (⟨[[]], (0, 0), Mode.insert, none, [228, 184]⟩, true) ∧
    handle_input ⟨[[]], (0, 0), Mode.insert, none, [228, 184]⟩ 173 "" =
      some (⟨[[20013]], (0, 1), Mode.insert, none, []⟩, true) := by
  have h := three_byte_decode ⟨[[]], (0, 0), Mode.insert, none, []⟩ "" 228 184 173 []
    rfl rfl (by decide) (by decide) (by decide) rfl
  exact ⟨h.1, h.2.1, h.2.2⟩

/-- C10: in insert mode with empty pending bytes, an ASCII control character
other than escape (27), enter (10) and backspace (127) — e.g. tab (9) —
leaves the whole state unchanged: decoded control characters are never
inserted into the buffer. -/
theorem ctrl_char_ignored (st : Editor) (ch : Nat) (e : String)
    (hm : st.mode = Mode.insert) (hub : st.utf8buffer = [])
    (h32 : ch < 32) (h27 : ch ≠ 27) (h10 : ch ≠ 10) :
    handle_input st ch e = some (st, true) := by
  have hd : decodeStep st.utf8buffer ch = (some [ch], []) := by
    rw [hub]
    exact decodeStep_ok [] ch [ch] (by omega) h27
      (by simpa using utf8Decode_ascii ch (by omega))
  simp only [handle_input, hm, handle_insert, hd]
  rw [if_neg h27, if_neg h10,
    if_neg (show ¬ (ch = KEY_BACKSPACE ∨ ch = 127) by unfold KEY_BACKSPACE; omega),
    if_neg (show ¬ ([ch] ≠ [] ∧ ¬ isctrl ch) by
      intro hc
      exact hc.2 h32)]
  rw [← hub, ← hm]

/-- Witness for `ctrl_char_ignored`: tab (9). -/
theorem ctrl_char_ignored_witness :
    handle_input ⟨[[]], (0, 0), Mode.insert, none, []⟩ 9 "" =
      some (⟨[[]], (0, 0), Mode.insert, none, []⟩, true) :=
  ctrl_char_ignored ⟨[[]], (0, 0), Mode.insert, none, []⟩ 9 "" rfl rfl (by decide)
    (by decide) (by decide)

/-! ### Claim theorems: determinism and idempotence (C5) -/

/-- C5 (amended): every core operation is deterministic — handling the same
event from the same state always yields the same result.  (Handling an event
twice in succession is NOT in general the same as handling it once; see the
counterexample.) -/
theorem handle_input_deterministic (st : Editor) (ch : Nat) (e : String)
    (r1 r2 : Option (Editor × Bool))
    (h1 : handle_input st ch e = r1) (h2 : handle_input st ch e = r2) : r1 = r2 :=
  h1.symm.trans h2

/-- Witness for `handle_input_deterministic`: the `i` key on the initial state. -/
theorem handle_input_deterministic_witness :
    (some (⟨[[]], (0, 0), Mode.insert, none, []⟩, true) : Option (Editor × Bool)) =
      some (⟨[[]], (0, 0), Mode.insert, none, []⟩, true) :=
  handle_input_deterministic ⟨[[]], (0, 0), Mode.command, none, []⟩ 105 "" _ _
    (by decide) (by decide)

/-- C5's counterexample to idempotence: inserting the character `a` (97)
twice from the same starting state inserts it twice — the state after two
events differs from the state after one. -/
theorem handle_twice_cx :
    handle_input ⟨[[]], (0, 0), Mode.insert, none, []⟩ 97 "" =
      some (⟨[[97]], (0, 1), Mode.insert, none, []⟩, true) ∧
    handle_input ⟨[[97]], (0, 1), Mode.insert, none, []⟩ 97 "" =
      some (⟨[[97, 97]], (0, 2), Mode.insert, none, []⟩, true) ∧
    (⟨[[97, 97]], (0, 2), Mode.insert, none, []⟩ : Editor) ≠
      ⟨[[97]], (0, 1), Mode.insert, none, []⟩ := by
  refine ⟨by decide, by decide, by decide⟩

/-! ### Claim theorems: visual delete commutes under anchor/cursor swap (C7) -/

theorem visualDelete_comm (buf : List Line) (a b : Pos) :
    visualDelete buf a b = visualDelete buf b a := by
  unfold visualDelete
  rw [normRange_comm]

/-- C7: for every buffer and every pair of valid positions `A`, `B`, the
visual `d` delete with anchor `A` and cursor `B` yields the same resulting
buffer and the same final cursor position as with anchor `B` and cursor `A`. -/
theorem visual_delete_comm (buf : List Line) (A B : Pos) (u : List Nat)
    (hA : validPos buf A) (hB : validPos buf B) :
    (handle_input ⟨buf, B, Mode.visual, some A, u⟩ 100 "").map
        (fun r => (r.1.buffer, r.1.pos)) =
      (handle_input ⟨buf, A, Mode.visual, some B, u⟩ 100 "").map
        (fun r => (r.1.buffer, r.1.pos)) := by
  have h : handle_input ⟨buf, B, Mode.visual, some A, u⟩ 100 "" =
      handle_input ⟨buf, A, Mode.visual, some B, u⟩ 100 "" := by
    simp only [handle_input, handle_visual]
    norm_num
    rw [visualDelete_comm buf A B]
  rw [h]

/-- Witness for `visual_delete_comm`: buffer `["ab", "cd"]`, positions
`(0,1)` and `(1,0)`. -/
theorem visual_delete_comm_witness :
    (handle_input ⟨[[97, 98], [99, 100]], (1, 0), Mode.visual, some (0, 1), []⟩ 100 "").map
        (fun r => (r.1.buffer, r.1.pos)) =
      (handle_input ⟨[[97, 98], [99, 100]], (0, 1), Mode.visual, some (1, 0), []⟩ 100 "").map
        (fun r => (r.1.buffer, r.1.pos)) :=
  visual_delete_comm [[97, 98], [99, 100]] (0, 1) (1, 0) [] (by decide) (by decide)

/-! ### Claim theorems: screen-to-buffer mapping (C9) -/

theorem widthSum_append (a b : List Nat) :
    widthSum (a ++ b) = widthSum a + widthSum b := by
  induction a with
  | nil => simp [widthSum]
  | cons c r IH => simp [widthSum, IH]; omega

theorem widthSum_take_le (l : List Nat) (j : Nat) : widthSum (l.take j) ≤ widthSum l := by
  conv_rhs => rw [← List.take_append_drop j l]
  rw [widthSum_append]
  omega

theorem pos2bufferGo_finds : ∀ (l : List Nat) (p i k x : Nat), k < l.length →
    x ≤ p + widthSum (l.take k) → (∀ j, j < k → p + widthSum (l.take j) < x) →
    pos2bufferGo x l p i = ((i + k : Nat) : Int) := by
  intro l
  induction l with
  | nil =>
    intro p i k x hk _ _
    simp at hk
  | cons c rest IH =>
    intro p i k x hk hge hmin
    cases k with
    | zero =>
      have hple : x ≤ p := by simpa [widthSum] using hge
      cases rest with
      | nil =>
        rw [pos2bufferGo, if_pos (by omega)]
        simp
      | cons c2 r2 =>
        rw [pos2bufferGo, if_pos (by omega)]
        simp
    | succ k2 =>
      have h0 : p < x := by
        have := hmin 0 (by omega)
        simpa [widthSum] using this
      cases rest with
      | nil => simp at hk
      | cons c2 r2 =>
        rw [pos2bufferGo, if_neg (by omega)]
        have hge2 : x ≤ (p + charWidth c) + widthSum ((c2 :: r2).take k2) := by
          simp only [List.take_succ_cons, widthSum] at hge
          omega
        have hmin2 : ∀ j, j < k2 → (p + charWidth c) + widthSum ((c2 :: r2).take j) < x := by
          intro j hj
          have := hmin (j + 1) (by omega)
          simp only [List.take_succ_cons, widthSum] at this
          omega
        rw [IH (p + charWidth c) (i + 1) k2 x (by simpa using hk) hge2 hmin2]
        push_cast
        omega

theorem pos2bufferGo_over : ∀ (l : List Nat) (p i x : Nat), l ≠ [] →
    (∀ j, j < l.length → p + widthSum (l.take j) < x) →
    pos2bufferGo x l p i =
      ((i : Int) + ((l.length - 1 : Nat) : Int)) +
        ((x : Int) - ((p + widthSum l : Nat) : Int)) + 1 := by
  intro l
  induction l with
  | nil => intro p i x hne _; exact absurd rfl hne
  | cons c rest IH =>
    intro p i x _ hall
    have h0 : p < x := by
      have := hall 0 (by simp)
      simpa [widthSum] using this
    cases rest with
    | nil =>
      rw [pos2bufferGo, if_neg (by omega)]
      simp only [widthSum, List.length_singleton]
      push_cast
      omega
    | cons c2 r2 =>
      rw [pos2bufferGo, if_neg (by omega)]
      have hall2 : ∀ j, j < (c2 :: r2).length → (p + charWidth c) + widthSum ((c2 :: r2).take j) < x := by
        intro j hj
        have := hall (j + 1) (by simpa using hj)
        simp only [List.take_succ_cons, widthSum] at this
        omega
      rw [IH (p + charWidth c) (i + 1) x (by simp) hall2]
      simp only [widthSum, List.length_cons]
      push_cast
      omega

/-- C9: for every line of the buffer and every target display column `x`,
`pos2buffer` returns the index of the character at which the accumulated
display width (of the characters before it) first reaches or exceeds `x`;
and when `x` exceeds the line's total display width it returns
`lastIndex + (x - totalWidth) + 1`, where `lastIndex` is the index of the
line's last character and `totalWidth` the sum of the widths of its
characters. -/
theorem pos2buffer_spec (st : Editor) (y x : Nat) (line : List Nat)
    (hline : st.buffer.get? y = some line) :
    (∀ i, i < line.length → x ≤ widthSum (line.take i) →
        (∀ j, j < i → widthSum (line.take j) < x) →
        pos2buffer st (y, x) = some ((i : Nat) : Int)) ∧
    (line ≠ [] → widthSum line < x →
        pos2buffer st (y, x) =
          some (((line.length - 1 : Nat) : Int) +
            ((x : Int) - ((widthSum line : Nat) : Int)) + 1)) := by
  constructor
  · intro i hi hge hmin
    unfold pos2buffer
    dsimp only
    rw [hline]
    dsimp only
    rw [pos2bufferGo_finds line 0 0 i x hi (by simpa using hge)
      (fun j hj => by simpa using hmin j hj)]
    simp
  · intro hne hlt
    unfold pos2buffer
    dsimp only
    rw [hline]
    dsimp only
    rw [pos2bufferGo_over line 0 0 x hne
      (fun j hj => by
        have h1 := widthSum_take_le line j
        omega)]
    simp only [Option.some.injEq]
    push_cast
    omega

/-- Witness for `pos2buffer_spec`: line "a中" (widths 1 and 2, total 3);
target column 1 hits character index 1, and target column 5 overshoots to
`1 + (5 - 3) + 1 = 4`. -/
theorem pos2buffer_spec_witness :
    pos2buffer ⟨[[97, 20013]], (0, 0), Mode.command, none, []⟩ (0, 1) = some 1 ∧
    pos2buffer ⟨[[97, 20013]], (0, 0), Mode.command, none, []⟩ (0, 5) = some 4 := by
  constructor
  · have h := (pos2buffer_spec ⟨[[97, 20013]], (0, 0), Mode.command, none, []⟩ 0 1
      [97, 20013] rfl).1 1 (by decide) (by decide)
      (fun j hj => by
        have hj0 : j = 0 := by omega
        subst hj0
        decide)
    simpa using h
  · have h := (pos2buffer_spec ⟨[[97, 20013]], (0, 0), Mode.command, none, []⟩ 0 5
      [97, 20013] rfl).2 (by decide) (by decide)
    simpa using h

/-! ### Invariant preservation (C2) -/

theorem lt_length_of_get? {α : Type} : ∀ (l : List α) (i : Nat) (a : α),
    l.get? i = some a → i < l.length
  | [], _, _, h => Option.noConfusion h
  | _ :: _, 0, _, _ => by simp
  | _ :: l, i + 1, a, h => by
    have := lt_length_of_get? l i a h
    simpa using this

theorem validPos_line (buf : List Line) (p : Pos) (h : validPos buf p) :
    ∃ line, buf.get? p.1 = some line ∧ p.2 ≤ line.length := by
  obtain ⟨h1, h2⟩ := h
  obtain ⟨line, hline⟩ := get?_some_of_lt buf p.1 h1
  refine ⟨line, hline, ?_⟩
  rw [hline] at h2
  simpa using h2

theorem validPos_of (buf : List Line) (p : Pos) (line : Line)
    (hline : buf.get? p.1 = some line) (hle : p.2 ≤ line.length) :
    validPos buf p := by
  refine ⟨lt_length_of_get? buf p.1 line hline, ?_⟩
  rw [hline]
  simpa using hle

theorem handle_ex_state (st : Editor) (cmd : String) :
    (handle_ex_command st cmd).1 = st := by
  unfold handle_ex_command
  split_ifs <;> rfl

theorem editorInv_nonvisual (st : Editor) (h1 : st.buffer ≠ [])
    (h2 : validPos st.buffer st.pos) (hm : st.mode ≠ Mode.visual) : EditorInv st :=
  ⟨h1, h2, fun hv => absurd hv hm⟩

/-- The four motion keys h/j/k/l only move the cursor, and keep it valid. -/
theorem motion_pos (st : Editor) (ch : Nat) (e : String)
    (h2 : validPos st.buffer st.pos)
    (hch : ch = 104 ∨ ch = 106 ∨ ch = 107 ∨ ch = 108) :
    ∃ p', handle_command st ch e = some ({st with pos := p'}, true) ∧
      validPos st.buffer p' := by
  obtain ⟨line, hline, hcol⟩ := validPos_line _ _ h2
  have hlt : st.pos.1 < st.buffer.length := h2.1
  rcases hch with h | h | h | h <;> subst h
  · -- 'h' = 104: move left if the column is positive
    by_cases hc : st.pos.2 > 0
    · refine ⟨(st.pos.1, st.pos.2 - 1), ?_, ?_⟩
      · unfold handle_command
        rw [if_neg (by decide), if_neg (by decide), if_neg (by decide), if_pos rfl,
          if_pos hc]
      · exact validPos_of _ _ line hline (by omega)
    · refine ⟨st.pos, ?_, ?_⟩
      · unfold handle_command
        rw [if_neg (by decide), if_neg (by decide), if_neg (by decide), if_pos rfl,
          if_neg hc]
      · exact h2
  · -- 'j' = 106: move down if not on the last line, clamping the column
    by_cases hj : st.pos.1 < st.buffer.length - 1
    · obtain ⟨nl, hnl⟩ := get?_some_of_lt st.buffer (st.pos.1 + 1) (by omega)
      refine ⟨(st.pos.1 + 1, min st.pos.2 nl.length), ?_, ?_⟩
      · unfold handle_command
        rw [if_neg (by decide), if_neg (by decide), if_neg (by decide),
          if_neg (by decide), if_neg (by decide), if_pos rfl, if_pos hj, hnl]
      · exact validPos_of _ _ nl hnl (Nat.min_le_right _ _)
    · refine ⟨st.pos, ?_, ?_⟩
      · unfold handle_command
        rw [if_neg (by decide), if_neg (by decide), if_neg (by decide),
          if_neg (by decide), if_neg (by decide), if_pos rfl, if_neg hj]
      · exact h2
  · -- 'k' = 107: move up if not on the first line, clamping the column
    by_cases hk : st.pos.1 > 0
    · obtain ⟨pl, hpl⟩ := get?_some_of_lt st.buffer (st.pos.1 - 1) (by omega)
      refine ⟨(st.pos.1 - 1, min st.pos.2 pl.length), ?_, ?_⟩
      · unfold handle_command
        rw [if_neg (by decide), if_neg (by decide), if_neg (by decide),
          if_neg (by decide), if_neg (by decide), if_neg (by decide), if_pos rfl,
          if_pos hk, hpl]
      · exact validPos_of _ _ pl hpl (Nat.min_le_right _ _)
    · refine ⟨st.pos, ?_, ?_⟩
      · unfold handle_command
        rw [if_neg (by decide), if_neg (by decide), if_neg (by decide),
          if_neg (by decide), if_neg (by decide), if_neg (by decide), if_pos rfl,
          if_neg hk]
      · exact h2
  · -- 'l' = 108: move right if before the end of the line
    by_cases hc : st.pos.2 < line.length
    · refine ⟨(st.pos.1, st.pos.2 + 1), ?_, ?_⟩
      · unfold handle_command
        rw [if_neg (by decide), if_neg (by decide), if_neg (by decide),
          if_neg (by decide), if_pos rfl, hline]
        dsimp only
        rw [if_pos hc]
      · exact validPos_of _ _ line hline (by omega)
    · refine ⟨st.pos, ?_, ?_⟩
      · unfold handle_command
        rw [if_neg (by decide), if_neg (by decide), if_neg (by decide),
          if_neg (by decide), if_pos rfl, hline]
        dsimp only
        rw [if_neg hc]
      · exact h2

theorem validPos_mk (buf : List Line) (i j : Nat) (line : Line)
    (hline : buf.get? i = some line) (hle : j ≤ line.length) :
    validPos buf (i, j) :=
  validPos_of buf (i, j) line hline (by simpa using hle)

theorem length_pyInsertAt (l : List Line) (i : Nat) (x : Line) (h : i ≤ l.length) :
    (pyInsertAt l i x).length = l.length + 1 := by
  unfold pyInsertAt
  simp [List.length_append, List.length_take, List.length_drop]
  omega

theorem get?_pyInsertAt_self (l : List Line) (i : Nat) (x : Line) (h : i ≤ l.length) :
    (pyInsertAt l i x).get? i = some x := by
  unfold pyInsertAt
  have hlen : (l.take i).length = i := by
    simp [List.length_take]
    omega
  rw [get?_append_ge _ _ i (le_of_eq hlen), hlen]
  simp

/-- `handle_command` preserves the editor invariant when invoked from
command mode, and always reports that the session continues. -/
theorem handle_command_inv (st : Editor) (ch : Nat) (e : String)
    (h : EditorInv st) (hm : st.mode = Mode.command) :
    ∃ st', handle_command st ch e = some (st', true) ∧ EditorInv st' := by
  obtain ⟨h1, h2, h3⟩ := h
  by_cases c105 : ch = 105
  · refine ⟨{st with mode := Mode.insert}, ?_, ?_⟩
    · unfold handle_command
      rw [if_pos c105]
    · exact editorInv_nonvisual _ h1 h2 (fun hv => Mode.noConfusion hv)
  by_cases c97 : ch = 97
  · obtain ⟨line, hline, hcol⟩ := validPos_line _ _ h2
    by_cases hc : st.pos.2 < line.length
    · refine ⟨{st with pos := (st.pos.1, st.pos.2 + 1), mode := Mode.insert}, ?_, ?_⟩
      · unfold handle_command
        rw [if_neg c105, if_pos c97, hline]
        dsimp only
        rw [if_pos hc]
      · exact editorInv_nonvisual _ h1
          (validPos_mk _ _ _ line hline (by omega)) (fun hv => Mode.noConfusion hv)
    · refine ⟨{st with mode := Mode.insert}, ?_, ?_⟩
      · unfold handle_command
        rw [if_neg c105, if_pos c97, hline]
        dsimp only
        rw [if_neg hc]
      · exact editorInv_nonvisual _ h1 h2 (fun hv => Mode.noConfusion hv)
  by_cases c118 : ch = 118
  · refine ⟨{st with mode := Mode.visual, visual_start := some st.pos}, ?_, ?_⟩
    · unfold handle_command
      rw [if_neg c105, if_neg c97, if_pos c118]
    · exact ⟨h1, h2, fun _ => ⟨rfl, h2⟩⟩
  by_cases cmot : ch = 104 ∨ ch = 106 ∨ ch = 107 ∨ ch = 108
  · obtain ⟨p', heq, hvp⟩ := motion_pos st ch e h2 cmot
    refine ⟨{st with pos := p'}, heq, ?_⟩
    refine editorInv_nonvisual _ h1 hvp ?_
    intro hv
    have hv2 : st.mode = Mode.visual := hv
    rw [hm] at hv2
    exact Mode.noConfusion hv2
  by_cases c58 : ch = 58
  · have c104 : ¬ ch = 104 := fun hh => cmot (Or.inl hh)
    have c108 : ¬ ch = 108 := fun hh => cmot (Or.inr (Or.inr (Or.inr hh)))
    have c106 : ¬ ch = 106 := fun hh => cmot (Or.inr (Or.inl hh))
    have c107 : ¬ ch = 107 := fun hh => cmot (Or.inr (Or.inr (Or.inl hh)))
    refine ⟨st, ?_, ⟨h1, h2, h3⟩⟩
    unfold handle_command
    rw [if_neg c105, if_neg c97, if_neg c118, if_neg c104, if_neg c108, if_neg c106,
      if_neg c107, if_pos c58]
    show some ((handle_ex_command st e).1, true) = some (st, true)
    rw [handle_ex_state]
  · have c104 : ¬ ch = 104 := fun hh => cmot (Or.inl hh)
    have c108 : ¬ ch = 108 := fun hh => cmot (Or.inr (Or.inr (Or.inr hh)))
    have c106 : ¬ ch = 106 := fun hh => cmot (Or.inr (Or.inl hh))
    have c107 : ¬ ch = 107 := fun hh => cmot (Or.inr (Or.inr (Or.inl hh)))
    refine ⟨st, ?_, ⟨h1, h2, h3⟩⟩
    unfold handle_command
    rw [if_neg c105, if_neg c97, if_neg c118, if_neg c104, if_neg c108, if_neg c106,
      if_neg c107, if_neg c58]

/-- `handle_insert` preserves the editor invariant, and always reports that
the session continues. -/
theorem handle_insert_inv (st : Editor) (ch : Nat) (hm : st.mode = Mode.insert)
    (h1 : st.buffer ≠ []) (h2 : validPos st.buffer st.pos) :
    ∃ st', handle_insert st ch = some (st', true) ∧ EditorInv st' := by
  obtain ⟨line, hline, hcol⟩ := validPos_line _ _ h2
  have hlt : st.pos.1 < st.buffer.length := h2.1
  obtain ⟨buf, p, m, vs, ub⟩ := st
  obtain ⟨p1, p2⟩ := p
  dsimp only at hm hline hcol hlt h1 h2
  subst hm
  by_cases c27 : ch = 27
  · have hd : decodeStep ub ch = (none, []) := decodeStep_ctrl ub ch (Or.inl c27)
    by_cases hp : p2 > 0
    · refine ⟨⟨buf, (p1, p2 - 1), Mode.command, vs, []⟩, ?_, ?_⟩
      · simp only [handle_insert, hd]
        rw [if_pos c27]
        rw [if_pos hp]
      · exact editorInv_nonvisual _ h1
          (validPos_mk _ _ _ line hline (by omega)) (fun hv => Mode.noConfusion hv)
    · refine ⟨⟨buf, (p1, p2), Mode.command, vs, []⟩, ?_, ?_⟩
      · simp only [handle_insert, hd]
        rw [if_pos c27]
        rw [if_neg hp]
      · exact editorInv_nonvisual _ h1 h2 (fun hv => Mode.noConfusion hv)
  by_cases c10 : ch = 10
  · rcases hdd : decodeStep ub ch with ⟨s, ub2⟩
    have hi1 : p1 + 1 ≤ (buf.set p1 (line.take p2)).length := by
      simp [List.length_set]
      omega
    refine ⟨⟨pyInsertAt (buf.set p1 (line.take p2)) (p1 + 1) (line.drop p2),
      (p1 + 1, 0), Mode.insert, vs, ub2⟩, ?_, ?_⟩
    · simp only [handle_insert, hdd]
      rw [if_neg c27, if_pos c10]
      rw [hline]
    · have hlen := length_pyInsertAt (buf.set p1 (line.take p2)) (p1 + 1) (line.drop p2) hi1
      refine editorInv_nonvisual _ ?_ ?_ (fun hv => Mode.noConfusion hv)
      · apply List.length_pos.mp
        dsimp only
        rw [hlen]
        simp [List.length_set]
      · exact validPos_mk _ _ _ (line.drop p2)
          (get?_pyInsertAt_self _ _ _ hi1) (Nat.zero_le _)
  by_cases cbk : ch = KEY_BACKSPACE ∨ ch = 127
  · rcases hdd : decodeStep ub ch with ⟨s, ub2⟩
    by_cases hp : p2 > 0
    · refine ⟨⟨buf.set p1 (line.take (p2 - 1) ++ line.drop p2),
        (p1, p2 - 1), Mode.insert, vs, ub2⟩, ?_, ?_⟩
      · simp only [handle_insert, hdd]
        rw [if_neg c27, if_neg c10, if_pos cbk]
        rw [if_pos hp, hline]
      · refine editorInv_nonvisual _ ?_ ?_ (fun hv => Mode.noConfusion hv)
        · apply List.length_pos.mp
          dsimp only
          rw [List.length_set]
          omega
        · refine validPos_mk _ _ _ _ (get?_set_self _ _ _ hlt) ?_
          simp [List.length_append, List.length_take, List.length_drop]
          omega
    · refine ⟨⟨buf, (p1, p2), Mode.insert, vs, ub2⟩, ?_, ?_⟩
      · simp only [handle_insert, hdd]
        rw [if_neg c27, if_neg c10, if_pos cbk]
        rw [if_neg hp]
      · exact editorInv_nonvisual _ h1 h2 (fun hv => Mode.noConfusion hv)
  · rcases hdd : decodeStep ub ch with ⟨s, ub2⟩
    cases s with
    | none =>
      refine ⟨⟨buf, (p1, p2), Mode.insert, vs, ub2⟩, ?_, ?_⟩
      · simp only [handle_insert, hdd]
        rw [if_neg c27, if_neg c10, if_neg cbk]
      · exact editorInv_nonvisual _ h1 h2 (fun hv => Mode.noConfusion hv)
    | some str =>
      by_cases hcond : str ≠ [] ∧ ¬ isctrl ch
      · refine ⟨⟨buf.set p1 (line.take p2 ++ str ++ line.drop p2),
          (p1, p2 + str.length), Mode.insert, vs, ub2⟩, ?_, ?_⟩
        · simp only [handle_insert, hdd]
          rw [if_neg c27, if_neg c10, if_neg cbk]
          rw [if_pos hcond, hline]
        · refine editorInv_nonvisual _ ?_ ?_ (fun hv => Mode.noConfusion hv)
          · apply List.length_pos.mp
            dsimp only
            rw [List.length_set]
            omega
          · refine validPos_mk _ _ _ _ (get?_set_self _ _ _ hlt) ?_
            simp [List.length_append, List.length_take, List.length_drop]
            omega
      · refine ⟨⟨buf, (p1, p2), Mode.insert, vs, ub2⟩, ?_, ?_⟩
        · simp only [handle_insert, hdd]
          rw [if_neg c27, if_neg c10, if_neg cbk]
          rw [if_neg hcond]
        · exact editorInv_nonvisual _ h1 h2 (fun hv => Mode.noConfusion hv)

/-- The visual delete succeeds on valid anchor and cursor, and produces a
non-empty buffer with a valid cursor. -/
theorem visualDelete_inv (buf : List Line) (a b : Pos)
    (ha : validPos buf a) (hb : validPos buf b) :
    ∃ buf2 p', visualDelete buf a b = some (buf2, p') ∧
      buf2 ≠ [] ∧ validPos buf2 p' := by
  have hcase := normRange_cases a b
  have hle := normRange_le a b
  set n := normRange a b with hn
  have hs : validPos buf n.1 := by
    rcases hcase with hc | hc <;> rw [hc]
    · exact ha
    · exact hb
  have he : validPos buf n.2 := by
    rcases hcase with hc | hc <;> rw [hc]
    · exact hb
    · exact ha
  obtain ⟨sline, hs1, hscol⟩ := validPos_line _ _ hs
  obtain ⟨eline, he1, hecol⟩ := validPos_line _ _ he
  by_cases hsame : n.1.1 = n.2.1
  · refine ⟨buf.set n.1.1 (sline.take n.1.2 ++ sline.drop n.2.2),
      (n.1.1, n.1.2), ?_, ?_, ?_⟩
    · simp only [visualDelete]
      rw [← hn, if_pos hsame, hs1]
    · apply List.length_pos.mp
      rw [List.length_set]
      have := hs.1
      omega
    · refine validPos_mk _ _ _ _ (get?_set_self _ _ _ hs.1) ?_
      simp [List.length_append, List.length_take, List.length_drop]
      omega
  · have hlt12 : n.1.1 < n.2.1 := by
      have := hle.1
      omega
    have hL1 : n.1.1 < buf.length := hs.1
    have hL2 : n.2.1 < buf.length := he.1
    refine ⟨((buf.set n.1.1 (sline.take n.1.2 ++ eline.drop n.2.2)).take (n.1.1 + 1)) ++
        ((buf.set n.1.1 (sline.take n.1.2 ++ eline.drop n.2.2)).drop (n.2.1 + 1)),
      (n.1.1, n.1.2), ?_, ?_, ?_⟩
    · simp only [visualDelete]
      rw [← hn, if_neg hsame, hs1, he1]
    · apply List.length_pos.mp
      simp [List.length_append, List.length_take, List.length_drop, List.length_set]
      omega
    · have hget : (((buf.set n.1.1 (sline.take n.1.2 ++ eline.drop n.2.2)).take (n.1.1 + 1)) ++
          ((buf.set n.1.1 (sline.take n.1.2 ++ eline.drop n.2.2)).drop (n.2.1 + 1))).get? n.1.1 =
          some (sline.take n.1.2 ++ eline.drop n.2.2) := by
        rw [get?_append_lt _ _ n.1.1 (by simp [List.length_take, List.length_set]; omega)]
        rw [get?_take_lt _ _ _ (by omega)]
        exact get?_set_self _ _ _ hL1
      refine validPos_mk _ _ _ _ hget ?_
      simp [List.length_append, List.length_take, List.length_drop]
      omega

/-- `handle_visual` preserves the editor invariant when invoked from visual
mode (where the invariant supplies a present, valid anchor), and always
reports that the session continues. -/
theorem handle_visual_inv (st : Editor) (ch : Nat) (e : String)
    (h : EditorInv st) (hm : st.mode = Mode.visual) :
    ∃ st', handle_visual st ch e = some (st', true) ∧ EditorInv st' := by
  obtain ⟨h1, h2, h3⟩ := h
  obtain ⟨hsome, hanchor⟩ := h3 hm
  obtain ⟨a, hvs⟩ : ∃ a, st.visual_start = some a := by
    cases hv2 : st.visual_start with
    | none =>
      rw [hv2] at hsome
      exact absurd hsome (by simp)
    | some a => exact ⟨a, rfl⟩
  rw [hvs] at hanchor
  simp only [Option.getD_some] at hanchor
  by_cases c27 : ch = 27
  · refine ⟨{st with mode := Mode.command, visual_start := none}, ?_, ?_⟩
    · unfold handle_visual
      rw [if_pos c27]
    · exact editorInv_nonvisual _ h1 h2 (fun hv => Mode.noConfusion hv)
  by_cases c100 : ch = 100
  · obtain ⟨buf2, p', hvd, hne, hvp⟩ := visualDelete_inv st.buffer a st.pos hanchor h2
    refine ⟨{st with
      buffer := buf2
      pos := p'
      mode := Mode.command
      visual_start := none}, ?_, ?_⟩
    · unfold handle_visual
      rw [if_neg c27, if_pos c100, hvs]
      dsimp only
      rw [hvd]
    · exact editorInv_nonvisual _ hne hvp (fun hv => Mode.noConfusion hv)
  by_cases c121 : ch = 121
  · refine ⟨{st with mode := Mode.command, visual_start := none}, ?_, ?_⟩
    · unfold handle_visual
      rw [if_neg c27, if_neg c100, if_pos c121]
    · exact editorInv_nonvisual _ h1 h2 (fun hv => Mode.noConfusion hv)
  by_cases cmot : ch = 104 ∨ ch = 106 ∨ ch = 107 ∨ ch = 108
  · obtain ⟨p', heq, hvp⟩ := motion_pos st ch e h2 cmot
    refine ⟨{st with pos := p'}, ?_, ?_⟩
    · unfold handle_visual
      rw [if_neg c27, if_neg c100, if_neg c121, if_pos cmot]
      exact heq
    · refine ⟨h1, hvp, fun _ => ⟨?_, ?_⟩⟩
      · have hvs2 : ({st with pos := p'} : Editor).visual_start = some a := hvs
        rw [hvs2]
        rfl
      · have hvs2 : ({st with pos := p'} : Editor).visual_start = some a := hvs
        rw [hvs2]
        simpa using hanchor
  · refine ⟨st, ?_, ⟨h1, h2, h3⟩⟩
    unfold handle_visual
    rw [if_neg c27, if_neg c100, if_neg c121, if_neg cmot]

/-- C2 (amended): the preserved invariant must also require that, in visual
mode, the anchor is present and itself a valid position (line index in
range, column at most the line length).  Under that strengthened invariant,
handling any single input event in any mode succeeds and yields a state that
again satisfies it — in particular the buffer never becomes empty and the
cursor stays in bounds.  (Without the anchor condition the claim fails; see
the counterexample.) -/
theorem handle_input_preserves_inv (st : Editor) (ch : Nat) (e : String)
    (h : EditorInv st) :
    ∃ st' b, handle_input st ch e = some (st', b) ∧ EditorInv st' := by
  cases hm : st.mode with
  | command =>
    obtain ⟨st', heq, hinv⟩ := handle_command_inv st ch e h hm
    exact ⟨st', true, by simp only [handle_input, hm]; exact heq, hinv⟩
  | insert =>
    obtain ⟨st', heq, hinv⟩ := handle_insert_inv st ch hm h.1 h.2.1
    exact ⟨st', true, by simp only [handle_input, hm]; exact heq, hinv⟩
  | visual =>
    obtain ⟨st', heq, hinv⟩ := handle_visual_inv st ch e h hm
    exact ⟨st', true, by simp only [handle_input, hm]; exact heq, hinv⟩

/-- C2's counterexample to the claim as stated: a state satisfying all three
stated conditions (non-empty buffer, line index in `[0, len-1]`, column in
`[0, len(line)]`) on which the visual-mode `d` event does NOT yield a valid
state — the anchor `(5,0)` is out of range and the deletion indexes the
buffer out of bounds (an `IndexError` in the Python source), so no state at
all is produced. -/
theorem invariant_cx :
    (⟨[[97]], (0, 0), Mode.visual, some (5, 0), []⟩ : Editor).buffer ≠ [] ∧
    validPos [[97]] (0, 0) ∧
    handle_input ⟨[[97]], (0, 0), Mode.visual, some (5, 0), []⟩ 100 "" = none := by
  refine ⟨by decide, by decide, by decide⟩

/-- Witness for `handle_input_preserves_inv`: the initial editor state and
the `j` key. -/
theorem handle_input_preserves_inv_witness :
    EditorInv ⟨[[]], (0, 0), Mode.command, none, []⟩ ∧
    ∃ st' b, handle_input ⟨[[]], (0, 0), Mode.command, none, []⟩ 106 "" = some (st', b) ∧
      EditorInv st' :=
  ⟨by decide,
    handle_input_preserves_inv ⟨[[]], (0, 0), Mode.command, none, []⟩ 106 "" (by decide)⟩

end Vi
